import Mathlib

/-!
Verification of the hierarchical document-permission system: a shallow
embedding of the closure-table page tree, the group nesting/membership
closures, and the SQL permission-resolution query, together with theorems
about resolution precedence, move/nest cycle guards, grant idempotence and
closure consistency.

Tables are embedded as lists of rows; the resolution CTE
(`RESOLVE_PERMISSION_SQL`), the workspace-default query
(`WORKSPACE_DEFAULT_SQL`), the service-level operations
(`movePage`, `addUser`, `removeUser`, `nestGroup`, `unnestGroup`) and the
Postgres triggers that maintain the closures (`maintain_page_tree_insert`,
`maintain_group_ancestor_insert`, `maintain_group_membership_insert`,
`maintain_group_membership_delete`, `prevent_group_cycle`) are translated
statement by statement.
-/

namespace AuthZ

/-- `permission_level` enum: none < read < write < full_access
(shared/types.ts `PERMISSION_LEVELS`). -/
inductive Level where
  | none
  | read
  | write
  | full_access
deriving DecidableEq, Repr

/-- `LEVEL_ORDER` from shared/types.ts: numeric rank of a level. -/
def Level.rank : Level → Nat
  | .none => 0
  | .read => 1
  | .write => 2
  | .full_access => 3

/-- `isAtLeast` from shared/types.ts: `LEVEL_ORDER[actual] >= LEVEL_ORDER[required]`. -/
def isAtLeast (actual required : Level) : Bool :=
  decide (required.rank ≤ actual.rank)

/-- The grantee of a `page_permissions` row: exactly one of user or group
(CHECK constraint `page_permissions_exactly_one_grantee`). -/
inductive Grantee where
  | user (u : Nat)
  | group (g : Nat)
deriving DecidableEq, Repr

/-- `CASE WHEN pp.user_id IS NOT NULL THEN 'user' ELSE 'group'` -/
def Grantee.isUser : Grantee → Bool
  | .user _ => true
  | .group _ => false

/-- A `page_tree_paths` row (ancestor_id, descendant_id, depth). -/
structure PathRow where
  ancestor : Nat
  descendant : Nat
  depth : Nat
deriving DecidableEq, Repr

/-- A `page_permissions` row. -/
structure GrantRow where
  page : Nat
  grantee : Grantee
  level : Level
deriving DecidableEq, Repr

/-- A `group_ancestor_paths` row (ancestor_group_id, descendant_group_id, depth). -/
structure GapRow where
  ancestor : Nat
  descendant : Nat
  depth : Nat
deriving DecidableEq, Repr

/-- The target of a `group_members` row: exactly one of user_id or
child_group_id (CHECK `group_members_exactly_one_target`). -/
inductive GMTarget where
  | user (u : Nat)
  | childGroup (g : Nat)
deriving DecidableEq, Repr

/-- A `group_members` row. -/
structure GMRow where
  group : Nat
  target : GMTarget
deriving DecidableEq, Repr

/-- A `pages` row (projection to the columns the core reads). -/
structure PageRow where
  id : Nat
  parent : Option Nat
  workspace : Nat
deriving DecidableEq, Repr

/-- The database state: one list per table of the schema. -/
structure DB where
  pages : List PageRow
  paths : List PathRow
  grants : List GrantRow
  users : List Nat
  groups : List Nat
  gm : List GMRow
  gap : List GapRow
  /-- `group_membership_closure` rows (group_id, user_id). -/
  gmc : List (Nat × Nat)
  /-- `workspace_members` rows (workspace_id, user_id). -/
  wsMembers : List (Nat × Nat)
  /-- `workspaces` rows (id, default_permission). -/
  workspaces : List (Nat × Level)
deriving DecidableEq, Repr

/-- Errors raised by the service layer.  The cycle guards in
page-tree.service.ts (`invariant(...)` → InvariantViolation) and in the
`prevent_group_cycle` trigger (RAISE EXCEPTION, wrapped as ConflictError by
the service) are both modelled as `cycle`, the spec's CycleError. -/
inductive OpError where
  | notFound
  | cycle
  | conflict
deriving DecidableEq, Repr

/-- State after attempting an operation: an error aborts the enclosing
transaction, leaving the previous state. -/
def stateAfter (r : Except OpError DB) (db : DB) : DB :=
  match r with
  | .ok db' => db'
  | .error _ => db

/-! ## Resolution engine (RESOLVE_PERMISSION_SQL, part of permission.repository) -/

/-- `user_groups` CTE: all groups the user belongs to, from
`group_membership_closure`. -/
def userGroupsOf (db : DB) (u : Nat) : List Nat :=
  (db.gmc.filter (fun r => r.2 == u)).map (fun r => r.1)

/-- `ancestors` CTE: all (ancestor_id, depth) rows of `page_tree_paths`
with the given descendant. -/
def ancestorsOf (db : DB) (p : Nat) : List (Nat × Nat) :=
  (db.paths.filter (fun r => r.descendant == p)).map (fun r => (r.ancestor, r.depth))

/-- The WHERE clause of `matching_permissions`: the grant names this user,
or a group the user (transitively) belongs to. -/
def applicable (db : DB) (u : Nat) (g : GrantRow) : Bool :=
  match g.grantee with
  | .user u' => u' == u
  | .group gr => decide (gr ∈ userGroupsOf db u)

/-- A row of the `matching_permissions` CTE. -/
structure MRow where
  page : Nat
  depth : Nat
  level : Level
  isUserGrant : Bool
deriving DecidableEq, Repr

/-- `matching_permissions` CTE: join of grants with the ancestors of the
target page, restricted to applicable grants. -/
def matching (db : DB) (u p : Nat) : List MRow :=
  (ancestorsOf db p).flatMap (fun a =>
    ((db.grants.filter (fun g => g.page == a.1 && applicable db u g)).map
      (fun g => ⟨g.page, a.2, g.level, g.grantee.isUser⟩)))

/-- `closest_depth` CTE: `MIN(depth)` over the matching permissions. -/
def minDepth? : List MRow → Option Nat
  | [] => Option.none
  | r :: rs => some (rs.foldl (fun d x => Nat.min d x.depth) r.depth)

/-- `candidates_at_closest` CTE: all matching permissions at the minimum depth. -/
def candidates (db : DB) (u p : Nat) : List MRow :=
  match minDepth? (matching db u p) with
  | Option.none => []
  | some d => (matching db u p).filter (fun r => r.depth == d)

/-- `grantee_priority`: user grants sort before group grants. -/
def prio (r : MRow) : Nat := if r.isUserGrant then 0 else 1

/-- `ORDER BY grantee_priority ASC, permission_rank DESC`: `x` sorts
strictly before `best`. -/
def beats (x best : MRow) : Bool :=
  prio x < prio best || (prio x == prio best && best.level.rank < x.level.rank)

/-- `LIMIT 1` after the ORDER BY: the first row in sort order (left-biased
among rows the ordering does not distinguish). -/
def pickWinner : List MRow → Option MRow
  | [] => Option.none
  | r :: rs => some (rs.foldl (fun best x => if beats x best then x else best) r)

/-- `PermissionRepository.resolveFromPageTree`: the winning row of
RESOLVE_PERMISSION_SQL, or none. -/
def resolveFromPageTree (db : DB) (u p : Nat) : Option MRow :=
  pickWinner (candidates db u p)

/-- `WORKSPACE_DEFAULT_SQL`: the page's workspace default permission, only
if the user is a member of that workspace. -/
def getWorkspaceDefault (db : DB) (u p : Nat) : Option Level :=
  match db.pages.find? (fun r => r.id == p) with
  | some pg =>
    match db.workspaces.find? (fun w => w.1 == pg.workspace) with
    | some w =>
      if (pg.workspace, u) ∈ db.wsMembers then some w.2 else Option.none
    | Option.none => Option.none
  | Option.none => Option.none

/-- `ResolvedPermission` discriminated union from shared/types.ts. -/
inductive Resolved where
  | direct (level : Level) (page : Nat)
  | inherited (level : Level) (fromPage : Nat) (depth : Nat)
  | workspaceDefault (level : Level)
  | noAccess
deriving DecidableEq, Repr

/-- `resolvedPermissionLevel` from shared/types.ts. -/
def resolvedLevel : Resolved → Level
  | .direct l _ => l
  | .inherited l _ _ => l
  | .workspaceDefault l => l
  | .noAccess => Level.none

/-- `PermissionService.resolvePermission`: page-tree result if any
(direct at depth 0, inherited otherwise); else workspace default when it
is present and not `none`; else no access. -/
def resolvePermission (db : DB) (u p : Nat) : Resolved :=
  match resolveFromPageTree db u p with
  | some row =>
    if row.depth == 0 then .direct row.level row.page
    else .inherited row.level row.page row.depth
  | Option.none =>
    match getWorkspaceDefault db u p with
    | some lvl => if lvl ≠ Level.none then .workspaceDefault lvl else .noAccess
    | Option.none => .noAccess

/-- `PermissionService.hasPermission`. -/
def hasPermission (db : DB) (u p : Nat) (required : Level) : Bool :=
  isAtLeast (resolvedLevel (resolvePermission db u p)) required

/-! ## Page tree operations (page-tree.service.ts) -/

/-- Step 1 of `movePage`: all rows for descendants of the moved page
(including itself). -/
def subtreeRows (db : DB) (pageId : Nat) : List PathRow :=
  db.paths.filter (fun r => r.ancestor == pageId)

/-- The descendant ids of the moved page's subtree. -/
def subtreeIds (db : DB) (pageId : Nat) : List Nat :=
  (subtreeRows db pageId).map (fun r => r.descendant)

/-- The mutation steps 1-4 of `PageTreeService.movePage`, run once the
guards have passed. -/
def movePageBody (db : DB) (pageId : Nat) (newParent : Option Nat) : DB :=
  -- Step 1: all descendants of the moved page (including itself)
  let descendants := subtreeRows db pageId
  let descIds := subtreeIds db pageId
  -- Step 2: delete paths from ancestors above the moved page to any descendant
  let afterDelete :=
    db.paths.filter (fun r => decide (¬(r.descendant ∈ descIds ∧ r.ancestor ∉ descIds)))
  -- Step 3: cross product of the new parent's ancestors with the subtree
  let newPaths :=
    match newParent with
    | some np =>
      let newAncestors := afterDelete.filter (fun r => r.descendant == np)
      newAncestors.flatMap (fun a =>
        descendants.map (fun d =>
          (⟨a.ancestor, d.descendant, a.depth + 1 + d.depth⟩ : PathRow)))
    | Option.none => []
  -- Step 4: update the adjacency list
  let pages' := db.pages.map (fun r => if r.id == pageId then { r with parent := newParent } else r)
  { db with paths := afterDelete ++ newPaths, pages := pages' }

/-- `PageTreeService.movePage` including its guards, in source order:
page exists, not moved under itself, new parent exists, no move under a
descendant (existing `page_tree_paths` row pageId → newParentId). -/
def movePage (db : DB) (pageId : Nat) (newParent : Option Nat) : Except OpError DB :=
  match db.pages.find? (fun r => r.id == pageId) with
  | Option.none => .error .notFound
  | some _ =>
    if newParent == some pageId then .error .cycle
    else
      match newParent with
      | some np =>
        match db.pages.find? (fun r => r.id == np) with
        | Option.none => .error .notFound
        | some _ =>
          if db.paths.any (fun r => r.ancestor == pageId && r.descendant == np) then
            .error .cycle
          else .ok (movePageBody db pageId newParent)
      | Option.none => .ok (movePageBody db pageId newParent)

/-- Adjacency lookup used by the consistency walk: `row?.parent_id ?? null`
(a missing page row behaves like a null parent). -/
def parentOf (db : DB) (p : Nat) : Option Nat :=
  match db.pages.find? (fun r => r.id == p) with
  | some r => r.parent
  | Option.none => Option.none

/-- The `while (currentId)` walk of `verifyClosureConsistency`, made total
with fuel.  For an acyclic adjacency list the chain has at most
`db.pages.length + 1` entries, so that much fuel reproduces the loop
exactly; on a cyclic adjacency list the TypeScript loop diverges. -/
def walkUp (db : DB) : Nat → Nat → List Nat
  | 0, _ => []
  | fuel + 1, cur =>
    cur :: (match parentOf db cur with
            | some nxt => walkUp db fuel nxt
            | Option.none => [])

/-- Insert a row into a list sorted by ascending depth. -/
def insertByDepth (r : PathRow) : List PathRow → List PathRow
  | [] => [r]
  | x :: xs => if r.depth ≤ x.depth then r :: x :: xs else x :: insertByDepth r xs

/-- Sort rows by ascending depth (`ORDER BY depth ASC`). -/
def sortByDepth : List PathRow → List PathRow
  | [] => []
  | r :: rs => insertByDepth r (sortByDepth rs)

/-- The closure-table query of `verifyClosureConsistency`: rows with the
given descendant, ordered by ascending depth. -/
def closureRows (db : DB) (p : Nat) : List PathRow :=
  sortByDepth (db.paths.filter (fun r => r.descendant == p))

/-- The comparison loop of `verifyClosureConsistency`: row `i` must name
the `i`-th adjacency ancestor at depth exactly `i` (the length check and
the indexed loop together). -/
def checkRows : List PathRow → List Nat → Nat → Bool
  | [], [], _ => true
  | r :: rs, a :: as, i => r.ancestor == a && r.depth == i && checkRows rs as (i + 1)
  | _, _, _ => false

/-- `PageTreeService.verifyClosureConsistency`. -/
def verifyClosureConsistency (db : DB) (p : Nat) : Bool :=
  checkRows (closureRows db p) (walkUp db (db.pages.length + 1) p) 0

/-! ## Grants (page_permissions unique indexes + setPermission insert) -/

/-- `setGrant`: insert into `page_permissions`; the partial unique indexes
`page_permissions_page_user_unique` / `page_permissions_page_group_unique`
reject a second grant for the same (page, grantee). -/
def setGrant (db : DB) (page : Nat) (grantee : Grantee) (level : Level) : Except OpError DB :=
  if db.grants.any (fun g => g.page == page && g.grantee == grantee) then .error .conflict
  else .ok { db with grants := db.grants ++ [⟨page, grantee, level⟩] }

/-! ## Group membership operations (group-membership.service.ts + triggers) -/

/-- `ON CONFLICT DO NOTHING` insert into `group_membership_closure`
(primary key (group_id, user_id)). -/
def insertGmc (gmc : List (Nat × Nat)) (r : Nat × Nat) : List (Nat × Nat) :=
  if r ∈ gmc then gmc else gmc ++ [r]

def insertGmcMany (gmc : List (Nat × Nat)) (rows : List (Nat × Nat)) : List (Nat × Nat) :=
  rows.foldl insertGmc gmc

/-- `ON CONFLICT (ancestor_group_id, descendant_group_id) DO NOTHING`
insert into `group_ancestor_paths`. -/
def insertGap (gap : List GapRow) (r : GapRow) : List GapRow :=
  if gap.any (fun q => q.ancestor == r.ancestor && q.descendant == r.descendant) then gap
  else gap ++ [r]

def insertGapMany (gap : List GapRow) (rows : List GapRow) : List GapRow :=
  rows.foldl insertGap gap

/-- `GroupMembershipService.addUser`: NotFound checks, unique-index
conflict, then the `maintain_group_membership_insert` trigger (user
branch): the user joins the group and all its `group_ancestor_paths`
ancestors. -/
def addUser (db : DB) (g u : Nat) : Except OpError DB :=
  if !(db.groups.contains g) then .error .notFound
  else if !(db.users.contains u) then .error .notFound
  else if db.gm.any (fun r => r.group == g && r.target == .user u) then .error .conflict
  else
    let gm' := db.gm ++ [⟨g, .user u⟩]
    let newRows :=
      (g, u) :: ((db.gap.filter (fun r => r.descendant == g && r.ancestor != g)).map
        (fun r => (r.ancestor, u)))
    .ok { db with gm := gm', gmc := insertGmcMany db.gmc newRows }

/-- `GroupMembershipService.removeUser`: delete the membership row, then
the `maintain_group_membership_delete` trigger (user branch): drop every
closure row of the user and re-derive from the remaining direct
memberships joined with `group_ancestor_paths` (COALESCE keeps the group
itself when it has no ancestor rows). -/
def removeUser (db : DB) (g u : Nat) : Except OpError DB :=
  if !(db.gm.any (fun r => r.group == g && r.target == .user u)) then .error .notFound
  else
    let gm' := db.gm.filter (fun r => !(r.group == g && r.target == .user u))
    let cleared := db.gmc.filter (fun r => r.2 != u)
    let rebuilt := gm'.foldl (fun acc r =>
      match r.target with
      | .user u' =>
        if u' == u then
          let anc := db.gap.filter (fun q => q.descendant == r.group)
          if anc.isEmpty then insertGmc acc (r.group, u)
          else insertGmcMany acc (anc.map (fun q => (q.ancestor, u)))
        else acc
      | .childGroup _ => acc) cleared
    .ok { db with gm := gm', gmc := rebuilt }

/-- `GroupMembershipService.nestGroup`: NotFound checks, the
`prevent_group_cycle` BEFORE-trigger (self-nesting, or the child already an
ancestor of the parent), the unique-index conflict, then the AFTER
triggers in name order: `maintain_group_ancestor_insert` (statements in
source order, each seeing the previous statements' rows) followed by
`maintain_group_membership_insert` (child branch). -/
def nestGroup (db : DB) (parent child : Nat) : Except OpError DB :=
  if !(db.groups.contains parent) then .error .notFound
  else if !(db.groups.contains child) then .error .notFound
  else if parent == child then .error .cycle
  else if db.gap.any (fun r => r.ancestor == child && r.descendant == parent) then .error .cycle
  else if db.gm.any (fun r => r.group == parent && r.target == .childGroup child) then
    .error .conflict
  else
    -- maintain_group_ancestor_insert
    let gap1 := insertGap db.gap ⟨parent, parent, 0⟩
    let gap2 := insertGap gap1 ⟨child, child, 0⟩
    let gap3 := insertGap gap2 ⟨parent, child, 1⟩
    let new4 := (gap3.filter (fun a => a.descendant == parent && a.ancestor != a.descendant)).flatMap
      (fun a => (gap3.filter (fun d => d.ancestor == child)).map
        (fun d => (⟨a.ancestor, d.descendant, a.depth + d.depth + 1⟩ : GapRow)))
    let gap4 := insertGapMany gap3 new4
    let new5 := (gap4.filter (fun r => r.descendant == parent && r.ancestor != parent)).map
      (fun r => (⟨r.ancestor, child, r.depth + 1⟩ : GapRow))
    let gap5 := insertGapMany gap4 new5
    let new6 := (gap5.filter (fun r => r.ancestor == child && r.descendant != child)).map
      (fun r => (⟨parent, r.descendant, r.depth + 1⟩ : GapRow))
    let gap6 := insertGapMany gap5 new6
    -- maintain_group_membership_insert (child_group_id branch)
    let newM1 := (db.gmc.filter (fun r => r.1 == child)).flatMap
      (fun r => (gap6.filter (fun q => q.descendant == parent)).map (fun q => (q.ancestor, r.2)))
    let gmc1 := insertGmcMany db.gmc newM1
    let newM2 := (gmc1.filter (fun r => r.1 == child)).map (fun r => (parent, r.2))
    let gmc2 := insertGmcMany gmc1 newM2
    .ok { db with gm := db.gm ++ [⟨parent, .childGroup child⟩], gap := gap6, gmc := gmc2 }

/-- One round of the `rebuildGroupAncestorPaths` loop body: for every
(closure row, nesting edge) join, add the extended path when no row with
that (ancestor, descendant) pair exists yet. -/
def rebuildStep (gap : List GapRow) (gm : List GMRow) : List GapRow :=
  let new := gap.flatMap (fun q => gm.filterMap (fun m =>
    match m.target with
    | .childGroup c =>
      if m.group == q.descendant
          && !(gap.any (fun e => e.ancestor == q.ancestor && e.descendant == c)) then
        some (⟨q.ancestor, c, q.depth + 1⟩ : GapRow)
      else Option.none
    | .user _ => Option.none))
  insertGapMany gap new

/-- The `while (inserted)` loop of `rebuildGroupAncestorPaths`, made total
with fuel (each productive round grows the table, which is bounded by the
square of the number of groups). -/
def rebuildLoop : Nat → List GapRow → List GMRow → List GapRow
  | 0, gap, _ => gap
  | fuel + 1, gap, gm =>
    let gap' := rebuildStep gap gm
    if gap'.length == gap.length then gap else rebuildLoop fuel gap' gm

/-- `rebuildGroupAncestorPaths`: delete all non-self rows, then re-derive
transitively from the nesting edges. -/
def rebuildGroupAncestorPaths (gap : List GapRow) (gm : List GMRow) (fuel : Nat) : List GapRow :=
  rebuildLoop fuel (gap.filter (fun r => r.ancestor == r.descendant)) gm

/-- `GroupMembershipService.unnestGroup`: delete the nesting edge (NotFound
when absent); the `maintain_group_membership_delete` AFTER-trigger (child
branch) then rebuilds `group_membership_closure` for the affected groups —
reading `group_ancestor_paths` BEFORE the service's later cleanup, i.e.
still containing the removed nesting's paths; finally the service calls
`rebuildGroupAncestorPaths`. -/
def unnestGroup (db : DB) (parent child : Nat) : Except OpError DB :=
  if !(db.gm.any (fun r => r.group == parent && r.target == .childGroup child)) then
    .error .notFound
  else
    let gm' := db.gm.filter (fun r => !(r.group == parent && r.target == .childGroup child))
    -- trigger: delete closure rows of the parent and its (stale) ancestors
    let affected := (db.gap.filter (fun r => r.descendant == parent)).map (fun r => r.ancestor)
    let gmc0 := db.gmc.filter (fun r => !(affected.contains r.1 || r.1 == parent))
    -- trigger insert 1: rebuild from (stale) ancestor paths of affected groups
    let gPairs := ((db.gap.filter (fun r => affected.contains r.ancestor || r.ancestor == parent)).map
      (fun r => (r.ancestor, r.descendant))) ++ [(parent, parent)]
    let new1 := gPairs.flatMap (fun gp =>
      (db.gap.filter (fun q => q.ancestor == gp.2)).flatMap (fun q =>
        gm'.filterMap (fun m =>
          match m.target with
          | .user u => if m.group == q.descendant then some (gp.1, u) else Option.none
          | .childGroup _ => Option.none)))
    let gmc1 := insertGmcMany gmc0 new1
    -- trigger insert 2: direct members of groups below the affected groups
    let gAgg := (db.gap.map (fun r => (r.ancestor, r.descendant)))
      ++ (db.groups.map (fun g => (g, g)))
    let affected2 := affected ++ [parent]
    let new2 := gm'.flatMap (fun m =>
      match m.target with
      | .user u =>
        (gAgg.filter (fun ga => ga.2 == m.group && affected2.contains ga.1)).map
          (fun ga => (ga.1, u))
      | .childGroup _ => [])
    let gmc2 := insertGmcMany gmc1 new2
    -- service: manual cleanup of group_ancestor_paths
    let gap' := rebuildGroupAncestorPaths db.gap gm'
      ((db.groups.length + 1) * (db.groups.length + 1) + 1)
    .ok { db with gm := gm', gap := gap', gmc := gmc2 }

/-! ## Lemmas about the resolution engine -/

theorem Level.rank_le_three (l : Level) : l.rank ≤ 3 := by
  cases l <;> simp [Level.rank]

theorem Level.rank_inj : ∀ {a b : Level}, a.rank = b.rank → a = b := by
  intro a b
  cases a <;> cases b <;> simp [Level.rank]

/-- The sort key realizing `ORDER BY grantee_priority ASC, permission_rank
DESC` as a single natural number (smaller sorts first). -/
def keyN (r : MRow) : Nat := prio r * 4 + (3 - r.level.rank)

theorem beats_iff (x b : MRow) : beats x b = true ↔ keyN x < keyN b := by
  have hx := Level.rank_le_three x.level
  have hb := Level.rank_le_three b.level
  simp only [beats, keyN, prio, Bool.or_eq_true, Bool.and_eq_true, decide_eq_true_eq,
    beq_iff_eq]
  cases x.isUserGrant <;> cases b.isUserGrant <;> simp <;> omega

theorem keyN_eq_same_rank {x b : MRow} (h : keyN x = keyN b) : x.level.rank = b.level.rank := by
  have hx := Level.rank_le_three x.level
  have hb2 := Level.rank_le_three b.level
  simp only [keyN, prio] at h
  cases hxu : x.isUserGrant <;> cases hbu : b.isUserGrant <;>
    simp only [hxu, hbu, if_true, if_false, Bool.false_eq_true] at h <;> omega

theorem foldl_pick_spec (best : MRow) (xs : List MRow) :
    (xs.foldl (fun b x => if beats x b then x else b) best) ∈ best :: xs ∧
      ∀ r ∈ best :: xs,
        keyN (xs.foldl (fun b x => if beats x b then x else b) best) ≤ keyN r := by
  induction xs generalizing best with
  | nil => simp
  | cons x xs ih =>
    simp only [List.foldl_cons]
    obtain ⟨hmem, hle⟩ := ih (if beats x best then x else best)
    have hb1best : keyN (if beats x best then x else best) ≤ keyN best := by
      by_cases hb : beats x best = true
      · simp only [hb, if_true]
        exact Nat.le_of_lt ((beats_iff x best).1 hb)
      · simp only [Bool.not_eq_true] at hb
        simp [hb]
    have hb1x : keyN (if beats x best then x else best) ≤ keyN x := by
      by_cases hb : beats x best = true
      · simp [hb]
      · simp only [Bool.not_eq_true] at hb
        simp only [hb, Bool.false_eq_true, if_false]
        have := (beats_iff x best).not.1 (by simp [hb])
        omega
    constructor
    · rcases List.mem_cons.1 hmem with h | h
      · rw [h]
        by_cases hb : beats x best = true
        · simp [hb]
        · simp only [Bool.not_eq_true] at hb
          simp [hb]
      · simp [List.mem_cons, h]
    · intro r hr
      rcases List.mem_cons.1 hr with h | hr2
      · exact (hle _ (List.mem_cons_self _ _)).trans (h ▸ hb1best)
      rcases List.mem_cons.1 hr2 with h | h
      · exact (hle _ (List.mem_cons_self _ _)).trans (h ▸ hb1x)
      · exact hle r (List.mem_cons_of_mem _ h)

theorem pickWinner_spec (l : List MRow) (hl : l ≠ []) :
    ∃ w, pickWinner l = some w ∧ w ∈ l ∧ ∀ r ∈ l, keyN w ≤ keyN r := by
  match l, hl with
  | r :: rs, _ =>
    obtain ⟨hmem, hle⟩ := foldl_pick_spec r rs
    exact ⟨_, rfl, hmem, hle⟩

theorem foldl_min_spec (d : Nat) (xs : List MRow) :
    (xs.foldl (fun a x => Nat.min a x.depth) d ≤ d ∧
      ∀ x ∈ xs, xs.foldl (fun a x => Nat.min a x.depth) d ≤ x.depth) ∧
    (xs.foldl (fun a x => Nat.min a x.depth) d = d ∨
      ∃ x ∈ xs, xs.foldl (fun a x => Nat.min a x.depth) d = x.depth) := by
  induction xs generalizing d with
  | nil => simp
  | cons x xs ih =>
    simp only [List.foldl_cons]
    obtain ⟨⟨h1, h2⟩, h3⟩ := ih (Nat.min d x.depth)
    refine ⟨⟨h1.trans (Nat.min_le_left _ _), ?_⟩, ?_⟩
    · intro y hy
      rcases List.mem_cons.1 hy with h | h
      · exact h ▸ (h1.trans (Nat.min_le_right _ _))
      · exact h2 y h
    · rcases h3 with h | ⟨y, hy, h⟩
      · have hm : Nat.min d x.depth = d ∨ Nat.min d x.depth = x.depth := by
          rcases Nat.le_total d x.depth with hc | hc
          · exact Or.inl (Nat.min_eq_left hc)
          · exact Or.inr (Nat.min_eq_right hc)
        rcases hm with hm | hm
        · exact Or.inl (h.trans hm)
        · exact Or.inr ⟨x, List.mem_cons_self _ _, h.trans hm⟩
      · exact Or.inr ⟨y, List.mem_cons_of_mem _ hy, h⟩

theorem minDepth?_spec (l : List MRow) (hl : l ≠ []) :
    ∃ d0, minDepth? l = some d0 ∧ (∃ r ∈ l, r.depth = d0) ∧ ∀ r ∈ l, d0 ≤ r.depth := by
  match l, hl with
  | r :: rs, _ =>
    obtain ⟨⟨h1, h2⟩, h3⟩ := foldl_min_spec r.depth rs
    refine ⟨_, rfl, ?_, ?_⟩
    · rcases h3 with h | ⟨y, hy, h⟩
      · exact ⟨r, List.mem_cons_self _ _, h.symm⟩
      · exact ⟨y, List.mem_cons_of_mem _ hy, h.symm⟩
    · intro s hs
      rcases List.mem_cons.1 hs with h | h
      · exact h ▸ h1
      · exact h2 s h

theorem mem_matching_iff (db : DB) (u p : Nat) (r : MRow) :
    r ∈ matching db u p ↔
      ∃ pr ∈ db.paths, pr.descendant = p ∧
        ∃ g ∈ db.grants, g.page = pr.ancestor ∧ applicable db u g = true ∧
          r = ⟨g.page, pr.depth, g.level, g.grantee.isUser⟩ := by
  simp only [matching, ancestorsOf, List.mem_flatMap, List.mem_map, List.mem_filter,
    Bool.and_eq_true, beq_iff_eq]
  constructor
  · rintro ⟨a, ⟨pr, ⟨hpr, hdesc⟩, rfl⟩, g, ⟨hg, hpage, happ⟩, rfl⟩
    exact ⟨pr, hpr, hdesc, g, hg, hpage, happ, rfl⟩
  · rintro ⟨pr, hpr, hdesc, g, hg, hpage, happ, rfl⟩
    exact ⟨(pr.ancestor, pr.depth), ⟨pr, ⟨hpr, hdesc⟩, rfl⟩, g, ⟨hg, hpage, happ⟩, rfl⟩

theorem candidates_eq_of_minDepth (db : DB) (u p d0 : Nat)
    (h : minDepth? (matching db u p) = some d0) :
    candidates db u p = (matching db u p).filter (fun r => r.depth == d0) := by
  simp [candidates, h]

/-- Characterization of `resolveFromPageTree` on a non-empty matching set:
it returns a candidate row at the minimum depth that is optimal for the
(user-before-group, most-permissive-first) ordering. -/
theorem resolveFromPageTree_spec (db : DB) (u p : Nat) (hm : matching db u p ≠ []) :
    ∃ w d0, minDepth? (matching db u p) = some d0 ∧
      resolveFromPageTree db u p = some w ∧
      w ∈ matching db u p ∧ w.depth = d0 ∧
      (∀ r ∈ matching db u p, d0 ≤ r.depth) ∧
      (∀ r ∈ candidates db u p, keyN w ≤ keyN r) := by
  obtain ⟨d0, hmin, ⟨r0, hr0, hr0d⟩, hle⟩ := minDepth?_spec _ hm
  have hcand := candidates_eq_of_minDepth db u p d0 hmin
  have hcne : candidates db u p ≠ [] := by
    rw [hcand]
    intro hnil
    have : r0 ∈ (matching db u p).filter (fun r => r.depth == d0) :=
      List.mem_filter.2 ⟨hr0, by simp [hr0d]⟩
    simp [hnil] at this
  obtain ⟨w, hpick, hwmem, hwopt⟩ := pickWinner_spec _ hcne
  have hwf := hcand ▸ hwmem
  have hwm := (List.mem_filter.1 hwf).1
  have hwd : w.depth = d0 := by
    have := (List.mem_filter.1 hwf).2
    simpa using this
  exact ⟨w, d0, hmin, by simpa [resolveFromPageTree] using hpick, hwm, hwd, hle, hwopt⟩

theorem matching_nil_of_pickWinner_none (db : DB) (u p : Nat)
    (h : resolveFromPageTree db u p = Option.none) : matching db u p = [] := by
  by_contra hm
  obtain ⟨w, d0, hmin, hres, hrest⟩ := resolveFromPageTree_spec db u p hm
  rw [hres] at h
  exact Option.noConfusion h

theorem resolveFromPageTree_none_of_nil (db : DB) (u p : Nat) (h : matching db u p = []) :
    resolveFromPageTree db u p = Option.none := by
  simp [resolveFromPageTree, candidates, h, minDepth?, pickWinner]

theorem resolvedLevel_of_some (db : DB) (u p : Nat) (w : MRow)
    (h : resolveFromPageTree db u p = some w) :
    resolvedLevel (resolvePermission db u p) = w.level := by
  simp only [resolvePermission, h]
  by_cases hd : w.depth == 0 <;> simp [hd, resolvedLevel]

theorem mem_insertGmc {gmc : List (Nat × Nat)} {r x : Nat × Nat} :
    x ∈ insertGmc gmc r ↔ x ∈ gmc ∨ x = r := by
  by_cases hc : r ∈ gmc
  · simp only [insertGmc, hc, if_true]
    constructor
    · exact Or.inl
    · rintro (h | rfl) <;> [exact h; exact hc]
  · simp [insertGmc, hc, List.mem_append]

theorem mem_insertGmcMany {rows : List (Nat × Nat)} {gmc : List (Nat × Nat)} {x : Nat × Nat} :
    x ∈ insertGmcMany gmc rows ↔ x ∈ gmc ∨ x ∈ rows := by
  induction rows generalizing gmc with
  | nil => simp [insertGmcMany]
  | cons r rows ih =>
    simp only [insertGmcMany, List.foldl_cons] at *
    rw [ih, mem_insertGmc]
    simp only [List.mem_cons]
    tauto

theorem mem_userGroupsOf {db : DB} {u G : Nat} :
    G ∈ userGroupsOf db u ↔ (G, u) ∈ db.gmc := by
  simp only [userGroupsOf, List.mem_map, List.mem_filter, beq_iff_eq]
  constructor
  · rintro ⟨⟨a, b⟩, ⟨hmem, hb⟩, ha⟩
    simp only at hb ha
    subst hb ha
    exact hmem
  · intro h
    exact ⟨(G, u), ⟨h, rfl⟩, rfl⟩

theorem filter_depth_through_le (l : List MRow) (d0 : Nat) :
    (l.filter (fun r => decide (r.depth ≤ d0))).filter (fun r => r.depth == d0)
      = l.filter (fun r => r.depth == d0) := by
  rw [List.filter_filter]
  apply List.filter_congr
  intro x hx
  by_cases h : x.depth = d0
  · simp [h]
  · simp [h]

/-! ## Claim theorems -/

/-- The conclusion of the C1 precedence claim at (db, u, p): resolution
picks a winning applicable grant at the minimum applicable depth; a
user-level grant wins there over every group grant, and within the winning
kind the maximum-rank level wins; the result is Direct at depth 0 (from
the page itself) and Inherited otherwise; and grants at ancestors farther
than the winning depth never influence the result. -/
def ResolutionPrecedence (db : DB) (u p : Nat) : Prop :=
  ∃ w : MRow,
    resolveFromPageTree db u p = some w ∧
    w ∈ matching db u p ∧
    (∀ r ∈ matching db u p, w.depth ≤ r.depth) ∧
    ((∃ r ∈ candidates db u p, r.isUserGrant = true) → w.isUserGrant = true) ∧
    (∀ r ∈ candidates db u p, r.isUserGrant = w.isUserGrant → r.level.rank ≤ w.level.rank) ∧
    resolvePermission db u p =
      (if w.depth = 0 then Resolved.direct w.level w.page
        else Resolved.inherited w.level w.page w.depth) ∧
    (w.depth = 0 → w.page = p) ∧
    (∀ db₂ : DB,
      (matching db₂ u p).filter (fun r => decide (r.depth ≤ w.depth))
          = (matching db u p).filter (fun r => decide (r.depth ≤ w.depth)) →
      resolvePermission db₂ u p = resolvePermission db u p)

/-- **C1.** The precedence contract of RESOLVE_PERMISSION_SQL +
`PermissionService.resolvePermission`, for any state whose depth-0
closure rows for the target are self-rows. -/
theorem c1_resolution_precedence (db : DB) (u p : Nat)
    (hm : matching db u p ≠ [])
    (hself : ∀ r ∈ db.paths, r.descendant = p → r.depth = 0 → r.ancestor = p) :
    ResolutionPrecedence db u p := by
  obtain ⟨w, d0, hmin, hres, hwmem, hwd, hle, hopt⟩ := resolveFromPageTree_spec db u p hm
  subst hwd
  refine ⟨w, hres, hwmem, hle, ?_, ?_, ?_, ?_, ?_⟩
  · -- a user grant at the winning depth forces a user winner
    rintro ⟨r, hr, hru⟩
    by_contra hwu
    simp only [Bool.not_eq_true] at hwu
    have h1 := hopt r hr
    have hrw := Level.rank_le_three w.level
    have hrr := Level.rank_le_three r.level
    simp only [keyN, prio, hru, hwu, if_true, Bool.false_eq_true, if_false] at h1
    omega
  · -- within the winning kind, the winner has maximum rank
    intro r hr hkind
    have h1 := hopt r hr
    have hrw := Level.rank_le_three w.level
    have hrr := Level.rank_le_three r.level
    simp only [keyN, prio, hkind] at h1
    by_cases hwu : w.isUserGrant = true <;> simp only [hwu, if_true,
      Bool.false_eq_true, if_false] at h1 <;> omega
  · -- shape of the service result
    simp only [resolvePermission, hres]
    by_cases hd : w.depth = 0 <;> simp [hd]
  · -- a depth-0 winner reports the page itself
    intro hd
    obtain ⟨pr, hpr, hdesc, g, hg, hpage, happ, heq⟩ := (mem_matching_iff db u p w).1 hwmem
    have hdep : pr.depth = 0 := by
      have : w.depth = pr.depth := by rw [heq]
      omega
    have hanc := hself pr hpr hdesc hdep
    have : w.page = g.page := by rw [heq]
    rw [this, hpage, hanc]
  · -- grants farther than the winning depth never influence the result
    intro db₂ hagree
    have hwfilt : w ∈ (matching db u p).filter (fun r => decide (r.depth ≤ w.depth)) :=
      List.mem_filter.2 ⟨hwmem, by simp⟩
    rw [← hagree] at hwfilt
    have hw2 : w ∈ matching db₂ u p := (List.mem_filter.1 hwfilt).1
    have hm₂ : matching db₂ u p ≠ [] := List.ne_nil_of_mem hw2
    obtain ⟨w₂, d₂, hmin₂, hres₂, hw₂mem, hw₂d, hle₂, hopt₂⟩ :=
      resolveFromPageTree_spec db₂ u p hm₂
    subst hw₂d
    have h1 : w₂.depth ≤ w.depth := hle₂ w hw2
    have hw₂filt : w₂ ∈ (matching db₂ u p).filter (fun r => decide (r.depth ≤ w.depth)) :=
      List.mem_filter.2 ⟨hw₂mem, by simp [h1]⟩
    rw [hagree] at hw₂filt
    have h2 : w.depth ≤ w₂.depth := hle w₂ (List.mem_filter.1 hw₂filt).1
    have hdd : w₂.depth = w.depth := Nat.le_antisymm h1 h2
    have hcand : candidates db₂ u p = candidates db u p := by
      rw [candidates_eq_of_minDepth db₂ u p _ hmin₂, candidates_eq_of_minDepth db u p _ hmin,
        hdd, ← filter_depth_through_le (matching db₂ u p) w.depth, hagree,
        filter_depth_through_le]
    have hsame : resolveFromPageTree db₂ u p = resolveFromPageTree db u p := by
      simp [resolveFromPageTree, hcand]
    simp only [resolvePermission, hsame, hres]

def dbC1w : DB :=
  { pages := [⟨0, Option.none, 0⟩, ⟨1, some 0, 0⟩],
    paths := [⟨0, 0, 0⟩, ⟨1, 1, 0⟩, ⟨0, 1, 1⟩],
    grants := [⟨0, .user 1, .write⟩, ⟨1, .group 7, .none⟩, ⟨1, .group 8, .read⟩],
    users := [1], groups := [7, 8], gm := [], gap := [], gmc := [(7, 1), (8, 1)],
    wsMembers := [], workspaces := [(0, .none)] }

theorem c1_witness : ResolutionPrecedence dbC1w 1 1 :=
  c1_resolution_precedence dbC1w 1 1 (by decide) (by decide)

theorem resolve_mono (db db₂ : DB) (u p : Nat)
    (hmono : ∀ r ∈ matching db u p, r ∈ matching db₂ u p)
    (hnew : ∀ r ∈ matching db₂ u p, r ∉ matching db u p →
      (resolvedLevel (resolvePermission db u p)).rank ≤ r.level.rank)
    (hfb : getWorkspaceDefault db₂ u p = getWorkspaceDefault db u p) :
    (resolvedLevel (resolvePermission db u p)).rank
      ≤ (resolvedLevel (resolvePermission db₂ u p)).rank := by
  by_cases hm : matching db u p = []
  · by_cases hm₂ : matching db₂ u p = []
    · have h1 := resolveFromPageTree_none_of_nil db u p hm
      have h2 := resolveFromPageTree_none_of_nil db₂ u p hm₂
      simp only [resolvePermission, h1, h2, hfb]
      exact Nat.le_refl _
    · obtain ⟨w₂, d₂, hmin₂, hres₂, hw₂mem, hw₂d, _, _⟩ :=
        resolveFromPageTree_spec db₂ u p hm₂
      have hnotin : w₂ ∉ matching db u p := by rw [hm]; simp
      have hb := hnew w₂ hw₂mem hnotin
      rw [resolvedLevel_of_some db₂ u p w₂ hres₂]
      exact hb
  · obtain ⟨w, d0, hmin, hres, hwmem, hwd, hle, hopt⟩ := resolveFromPageTree_spec db u p hm
    subst hwd
    have hm₂ : matching db₂ u p ≠ [] := List.ne_nil_of_mem (hmono w hwmem)
    obtain ⟨w₂, d₂, hmin₂, hres₂, hw₂mem, hw₂d, hle₂, hopt₂⟩ :=
      resolveFromPageTree_spec db₂ u p hm₂
    subst hw₂d
    by_cases hwold : w₂ ∈ matching db u p
    · have h1 : w₂.depth ≤ w.depth := hle₂ w (hmono w hwmem)
      have h2 : w.depth ≤ w₂.depth := hle w₂ hwold
      have hdd : w₂.depth = w.depth := Nat.le_antisymm h1 h2
      have hwc₂ : w ∈ candidates db₂ u p := by
        rw [candidates_eq_of_minDepth db₂ u p _ hmin₂]
        exact List.mem_filter.2 ⟨hmono w hwmem, by simp [hdd]⟩
      have hw₂c : w₂ ∈ candidates db u p := by
        rw [candidates_eq_of_minDepth db u p _ hmin]
        exact List.mem_filter.2 ⟨hwold, by simp [hdd]⟩
      have k1 := hopt w₂ hw₂c
      have k2 := hopt₂ w hwc₂
      have hk : keyN w₂ = keyN w := Nat.le_antisymm k2 k1
      rw [resolvedLevel_of_some db u p w hres, resolvedLevel_of_some db₂ u p w₂ hres₂,
        keyN_eq_same_rank hk]
    · have hb := hnew w₂ hw₂mem hwold
      rw [resolvedLevel_of_some db₂ u p w₂ hres₂]
      exact hb

theorem matching_congr_groups (db db₂ : DB) (u p : Nat)
    (hpaths : db₂.paths = db.paths) (hgrants : db₂.grants = db.grants)
    (hsub : ∀ G, G ∈ userGroupsOf db u → G ∈ userGroupsOf db₂ u) :
    ∀ r ∈ matching db u p, r ∈ matching db₂ u p := by
  intro r hr
  rw [mem_matching_iff] at hr ⊢
  obtain ⟨pr, hpr, hdesc, g, hg, hpage, happ, heq⟩ := hr
  refine ⟨pr, by rw [hpaths]; exact hpr, hdesc, g, by rw [hgrants]; exact hg, hpage, ?_, heq⟩
  cases hgr : g.grantee with
  | user u' =>
    simp only [applicable, hgr] at happ ⊢
    exact happ
  | group G =>
    simp only [applicable, hgr, decide_eq_true_eq] at happ ⊢
    exact hsub G happ

theorem matching_new_from_groups (db db₂ : DB) (u p : Nat)
    (hpaths : db₂.paths = db.paths) (hgrants : db₂.grants = db.grants)
    (r : MRow) (hr : r ∈ matching db₂ u p) (hnot : r ∉ matching db u p) :
    ∃ gr ∈ db.grants, ∃ G, gr.grantee = .group G ∧ G ∈ userGroupsOf db₂ u ∧
      G ∉ userGroupsOf db u ∧ r.level = gr.level := by
  rw [mem_matching_iff] at hr
  obtain ⟨pr, hpr, hdesc, g, hg, hpage, happ, heq⟩ := hr
  rw [hpaths] at hpr
  rw [hgrants] at hg
  by_cases happ1 : applicable db u g = true
  · exact absurd ((mem_matching_iff db u p r).2 ⟨pr, hpr, hdesc, g, hg, hpage, happ1, heq⟩) hnot
  · cases hgr : g.grantee with
    | user u' =>
      exfalso
      apply happ1
      simp only [applicable, hgr] at happ ⊢
      exact happ
    | group G =>
      refine ⟨g, hg, G, hgr, ?_, ?_, by rw [heq]⟩
      · simp only [applicable, hgr, decide_eq_true_eq] at happ
        exact happ
      · intro hmem
        apply happ1
        simp only [applicable, hgr, decide_eq_true_eq]
        exact hmem

/-- The grants whose levels bound the amended C2 claim: those held by `g`
itself or by an ancestor group of `g`. -/
def granteeInScope (db : DB) (g : Nat) (gr : GrantRow) : Prop :=
  match gr.grantee with
  | .group G => G = g ∨ ∃ q ∈ db.gap, q.descendant = g ∧ q.ancestor = G
  | .user _ => False

instance (db : DB) (g : Nat) (gr : GrantRow) : Decidable (granteeInScope db g gr) := by
  rcases gr with ⟨pg, gt, lv⟩
  cases gt with
  | user u' => exact isFalse (fun hh => hh)
  | group G =>
    show Decidable (G = g ∨ ∃ q ∈ db.gap, q.descendant = g ∧ q.ancestor = G)
    infer_instance

/-- **C2 (amended).** Adding user `u` to group `g` never decreases the
effective level of `resolve(u, n)` PROVIDED every grant whose grantee is
`g` or an ancestor group of `g` has level at least the effective level of
`resolve(u, n)` before the addition.  (Unconditionally the claim is false:
`c2_counterexample` shows a `none` grant of `g` at a closer depth
lowering the result.) -/
theorem c2_addUser_monotone (db db' : DB) (g u p : Nat)
    (h : addUser db g u = .ok db')
    (hg : ∀ gr ∈ db.grants, granteeInScope db g gr →
      (resolvedLevel (resolvePermission db u p)).rank ≤ gr.level.rank) :
    (resolvedLevel (resolvePermission db u p)).rank
      ≤ (resolvedLevel (resolvePermission db' u p)).rank := by
  simp only [addUser] at h
  split at h
  · simp at h
  · split at h
    · simp at h
    · split at h
      · simp at h
      · simp only [Except.ok.injEq] at h
        have hpaths : db'.paths = db.paths := by rw [← h]
        have hgrants : db'.grants = db.grants := by rw [← h]
        have hgmc : db'.gmc = insertGmcMany db.gmc
            ((g, u) :: ((db.gap.filter (fun r => r.descendant == g && r.ancestor != g)).map
              (fun r => (r.ancestor, u)))) := by rw [← h]
        have hfb : getWorkspaceDefault db' u p = getWorkspaceDefault db u p := by
          rw [← h]
          rfl
        apply resolve_mono db db' u p
        · refine matching_congr_groups db db' u p hpaths hgrants ?_
          intro G hG
          rw [mem_userGroupsOf] at hG ⊢
          rw [hgmc]
          exact mem_insertGmcMany.2 (Or.inl hG)
        · intro r hr hnot
          obtain ⟨gr, hgrm, G, hgrt, hG2, hG1, hlvl⟩ :=
            matching_new_from_groups db db' u p hpaths hgrants r hr hnot
          rw [mem_userGroupsOf, hgmc] at hG2
          rw [mem_userGroupsOf] at hG1
          have hG2' := mem_insertGmcMany.1 hG2
          rcases hG2' with hold | hnewrow
          · exact absurd hold hG1
          · have hcase : G = g ∨ ∃ q ∈ db.gap, q.descendant = g ∧ q.ancestor = G := by
              rcases List.mem_cons.1 hnewrow with hh | hh
              · exact Or.inl (congrArg Prod.fst hh)
              · obtain ⟨q, hq, hqe⟩ := List.mem_map.1 hh
                have hqf := List.mem_filter.1 hq
                have hqdesc : q.descendant = g := by
                  have hc2 := hqf.2
                  simp only [Bool.and_eq_true, beq_iff_eq, bne_iff_ne] at hc2
                  exact hc2.1
                refine Or.inr ⟨q, hqf.1, hqdesc, ?_⟩
                exact congrArg Prod.fst hqe
            have hant : granteeInScope db g gr := by
              unfold granteeInScope
              rw [hgrt]
              exact hcase
            have hb := hg gr hgrm hant
            rw [hlvl]
            exact hb
        · exact hfb

def dbC2 : DB :=
  { pages := [⟨10, Option.none, 0⟩, ⟨11, some 10, 0⟩],
    paths := [⟨10, 10, 0⟩, ⟨11, 11, 0⟩, ⟨10, 11, 1⟩],
    grants := [⟨10, .user 1, .write⟩, ⟨11, .group 5, .none⟩],
    users := [1], groups := [5], gm := [], gap := [⟨5, 5, 0⟩], gmc := [],
    wsMembers := [], workspaces := [(0, .none)] }

def dbC2' : DB := stateAfter (addUser dbC2 5 1) dbC2

/-- The claim as stated is false: group 5 holds a `none` grant on page 11;
before joining, user 1 resolves to Inherited(write, 10, 1) on page 11, and
after being added to group 5 resolves to Direct(none, 11) — a strict
decrease. -/
theorem c2_counterexample :
    addUser dbC2 5 1 = .ok dbC2' ∧
    (⟨11, .group 5, .none⟩ : GrantRow) ∈ dbC2.grants ∧
    resolvePermission dbC2 1 11 = .inherited .write 10 1 ∧
    resolvePermission dbC2' 1 11 = .direct .none 11 ∧
    (resolvedLevel (resolvePermission dbC2' 1 11)).rank
      < (resolvedLevel (resolvePermission dbC2 1 11)).rank :=
  ⟨rfl, by decide, by decide, by decide, by decide⟩

def dbC2w : DB :=
  { pages := [⟨0, Option.none, 0⟩], paths := [⟨0, 0, 0⟩],
    grants := [⟨0, .group 5, .write⟩], users := [1], groups := [5],
    gm := [], gap := [], gmc := [], wsMembers := [], workspaces := [(0, .none)] }

def dbC2w' : DB := stateAfter (addUser dbC2w 5 1) dbC2w

theorem c2_witness :
    addUser dbC2w 5 1 = .ok dbC2w' ∧
      (resolvedLevel (resolvePermission dbC2w 1 0)).rank
        ≤ (resolvedLevel (resolvePermission dbC2w' 1 0)).rank :=
  ⟨rfl, c2_addUser_monotone dbC2w dbC2w' 5 1 0 rfl (by decide)⟩

/-- The adjacency chain of `verifyClosureConsistency` paired with its
positions: the `i`-th ancestor is expected at depth exactly `i`. -/
def chainWithDepth : List Nat → Nat → List (Nat × Nat)
  | [], _ => []
  | a :: as, i => (a, i) :: chainWithDepth as (i + 1)

theorem checkRows_iff (rows : List PathRow) (chain : List Nat) (i : Nat) :
    checkRows rows chain i = true ↔
      rows.map (fun r => (r.ancestor, r.depth)) = chainWithDepth chain i := by
  induction rows generalizing chain i with
  | nil => cases chain <;> simp [checkRows, chainWithDepth]
  | cons r rs ih =>
    cases chain with
    | nil => simp [checkRows, chainWithDepth]
    | cons a as =>
      simp only [checkRows, chainWithDepth, Bool.and_eq_true, beq_iff_eq, ih,
        List.map_cons, List.cons.injEq, Prod.mk.injEq]

theorem mem_subtreeIds {db : DB} {n x : Nat} :
    x ∈ subtreeIds db n ↔ ∃ q ∈ db.paths, q.ancestor = n ∧ q.descendant = x := by
  simp only [subtreeIds, subtreeRows, List.mem_map, List.mem_filter, beq_iff_eq]
  constructor
  · rintro ⟨q, ⟨hq, ha⟩, rfl⟩
    exact ⟨q, hq, ha, rfl⟩
  · rintro ⟨q, hq, ha, rfl⟩
    exact ⟨q, ⟨hq, ha⟩, rfl⟩

theorem mem_movePageBody_paths (db : DB) (n : Nat) (np : Option Nat) (r : PathRow)
    (hg : ∀ p2, np = some p2 → p2 ∉ subtreeIds db n) :
    r ∈ (movePageBody db n np).paths ↔
      ((r ∈ db.paths ∧ ¬(r.descendant ∈ subtreeIds db n ∧ r.ancestor ∉ subtreeIds db n)) ∨
        (∃ p2, np = some p2 ∧
          ∃ a ∈ db.paths, a.descendant = p2 ∧
            ∃ d ∈ db.paths, d.ancestor = n ∧
              r = ⟨a.ancestor, d.descendant, a.depth + 1 + d.depth⟩)) := by
  cases np with
  | none =>
    simp only [movePageBody, List.append_nil, List.mem_filter, decide_eq_true_eq]
    constructor
    · intro hh
      exact Or.inl ⟨hh.1, hh.2⟩
    · rintro (⟨hmem, hcond⟩ | ⟨p2, hp2, _⟩)
      · exact ⟨hmem, hcond⟩
      · exact Option.noConfusion hp2
  | some p2 =>
    have hp2 : p2 ∉ subtreeIds db n := hg p2 rfl
    simp only [movePageBody, subtreeRows, List.mem_append, List.mem_filter, List.mem_flatMap,
      List.mem_map, decide_eq_true_eq, beq_iff_eq]
    constructor
    · rintro (⟨hmem, hcond⟩ | ⟨a, ⟨⟨hamem, hacond⟩, hadesc⟩, d, ⟨hdmem, hdanc⟩, heq⟩)
      · exact Or.inl ⟨hmem, hcond⟩
      · exact Or.inr ⟨p2, rfl, a, hamem, hadesc, d, hdmem, hdanc, heq.symm⟩
    · rintro (⟨hmem, hcond⟩ | ⟨p2', hp2eq, a, ha, hadesc, d, hd, hdanc, heq⟩)
      · exact Or.inl ⟨hmem, hcond⟩
      · injection hp2eq with hpp
        subst hpp
        refine Or.inr ⟨a, ⟨⟨ha, ?_⟩, hadesc⟩, d, ⟨hd, hdanc⟩, heq.symm⟩
        intro hcontra
        rw [hadesc] at hcontra
        exact hp2 hcontra.1

/-- The conclusion of the C4 claim for `movePage(n, np)` taking `db` to
`db'`: the ancestry index after the move contains exactly the preserved
rows (internal subtree rows and rows not touching the subtree) plus, when
a new parent is given, one row per (ancestor of the new parent) ×
(subtree member) at the composed depth; and an inherited resolution
source for any page of the moved subtree lies inside the subtree or on
the new parent's ancestor chain. -/
def MoveRewiring (db db' : DB) (n : Nat) (np : Option Nat) : Prop :=
  (∀ r : PathRow, r ∈ db'.paths ↔
    ((r ∈ db.paths ∧ ¬(r.descendant ∈ subtreeIds db n ∧ r.ancestor ∉ subtreeIds db n)) ∨
      (∃ p2, np = some p2 ∧
        ∃ a ∈ db.paths, a.descendant = p2 ∧
          ∃ d ∈ db.paths, d.ancestor = n ∧
            r = ⟨a.ancestor, d.descendant, a.depth + 1 + d.depth⟩))) ∧
  (∀ u d lvl f dep, d ∈ subtreeIds db n →
    resolvePermission db' u d = .inherited lvl f dep →
    (f ∈ subtreeIds db n ∨
      ∃ p2, np = some p2 ∧ ∃ a ∈ db.paths, a.descendant = p2 ∧ a.ancestor = f))

/-- **C4.** After a successful `movePage(n, p2)`: the rows whose descendant
lies in n's subtree are exactly the preserved internal rows plus one row
per (ancestor of p2) × (subtree member) with the composed depth, rows
linking the subtree to outside ancestors are gone, other rows are
untouched; consequently, for every user and every page in the moved
subtree, an inherited resolution source is inside the subtree or on p2's
ancestor chain — never the severed old chain. -/
theorem c4_move_rewires (db db' : DB) (n : Nat) (np : Option Nat)
    (h : movePage db n np = .ok db') :
    MoveRewiring db db' n np := by
  unfold MoveRewiring
  have hbody : db' = movePageBody db n np ∧ (∀ p2, np = some p2 → p2 ∉ subtreeIds db n) := by
    unfold movePage at h
    split at h
    · simp at h
    · split at h
      · simp at h
      · split at h
        · split at h
          · simp at h
          · split at h
            · simp at h
            · rename_i p2 hfind2 hany
              simp only [Except.ok.injEq] at h
              refine ⟨h.symm, ?_⟩
              rintro p2' hp2' hmem
              injection hp2' with hpp
              subst hpp
              rw [mem_subtreeIds] at hmem
              obtain ⟨q, hq, hanc, hdesc⟩ := hmem
              rw [Bool.not_eq_true, List.any_eq_false] at hany
              have := hany q hq
              simp [hanc, hdesc] at this
        · simp only [Except.ok.injEq] at h
          refine ⟨h.symm, ?_⟩
          rintro p2' hp2' hmem
          exact Option.noConfusion hp2'
  obtain ⟨hdb', hg⟩ := hbody
  subst hdb'
  have hiff := fun r => mem_movePageBody_paths db n np r hg
  refine ⟨hiff, ?_⟩
  intro u d lvl f dep hd hres
  cases hr : resolveFromPageTree (movePageBody db n np) u d with
  | none =>
    exfalso
    simp only [resolvePermission, hr] at hres
    cases hw : getWorkspaceDefault (movePageBody db n np) u d with
    | none =>
      rw [hw] at hres
      exact Resolved.noConfusion hres
    | some l =>
      rw [hw] at hres
      by_cases hl : l ≠ Level.none
      · simp [hl] at hres
      · simp [hl] at hres
  | some w =>
    simp only [resolvePermission, hr] at hres
    by_cases hdep0 : (w.depth == 0) = true
    · simp [hdep0] at hres
    · rw [Bool.not_eq_true] at hdep0
      simp only [hdep0, Bool.false_eq_true, if_false, Resolved.inherited.injEq] at hres
      obtain ⟨hlvl, hpage, hdepth⟩ := hres
      have hmne : matching (movePageBody db n np) u d ≠ [] := by
        intro hnil
        rw [resolveFromPageTree_none_of_nil _ u d hnil] at hr
        exact Option.noConfusion hr
      obtain ⟨w', d0, hmin, hres', hwmem, hwd, hle, hopt⟩ :=
        resolveFromPageTree_spec (movePageBody db n np) u d hmne
      rw [hr] at hres'
      have hww : w = w' := by
        injection hres'
      subst hww
      obtain ⟨pr, hpr, hdesc, g, hgm, hgpage, happ, heq⟩ :=
        (mem_matching_iff (movePageBody db n np) u d w).1 hwmem
      have hfanc : f = pr.ancestor := by
        have : w.page = g.page := by rw [heq]
        rw [← hpage, this, hgpage]
      rcases (hiff pr).1 hpr with ⟨hold, hcond⟩ | ⟨p2, hp2, a, ha, hadesc, dd, hdd, hddanc, hpreq⟩
      · left
        by_contra hf
        apply hcond
        rw [hdesc, ← hfanc]
        exact ⟨hd, hf⟩
      · right
        refine ⟨p2, hp2, a, ha, hadesc, ?_⟩
        rw [hfanc, hpreq]

def dbC4w : DB :=
  { pages := [⟨1, Option.none, 0⟩, ⟨2, some 1, 0⟩, ⟨3, Option.none, 0⟩, ⟨4, some 2, 0⟩],
    paths := [⟨1, 1, 0⟩, ⟨2, 2, 0⟩, ⟨1, 2, 1⟩, ⟨3, 3, 0⟩, ⟨4, 4, 0⟩, ⟨2, 4, 1⟩, ⟨1, 4, 2⟩],
    grants := [⟨1, .user 9, .write⟩, ⟨3, .user 9, .read⟩], users := [9], groups := [],
    gm := [], gap := [], gmc := [], wsMembers := [], workspaces := [(0, .none)] }

def dbC4w' : DB := stateAfter (movePage dbC4w 2 (some 3)) dbC4w

theorem c4_witness :
    movePage dbC4w 2 (some 3) = .ok dbC4w' ∧ MoveRewiring dbC4w dbC4w' 2 (some 3) :=
  ⟨rfl, c4_move_rewires dbC4w dbC4w' 2 (some 3) rfl⟩

/-- **C10.** `verifyClosureConsistency(n)` returns true iff the closure
rows with descendant `n`, ordered by ascending depth, are exactly the
parent-pointer chain from `n` with the `i`-th ancestor at depth exactly
`i` (same count, same ancestor ids, same depths). -/
theorem c10_verify_iff (db : DB) (p : Nat) :
    verifyClosureConsistency db p = true ↔
      (closureRows db p).map (fun r => (r.ancestor, r.depth))
        = chainWithDepth (walkUp db (db.pages.length + 1) p) 0 :=
  checkRows_iff _ _ 0

def dbC7 : DB :=
  { pages := [], paths := [], grants := [], users := [9], groups := [1, 2],
    gm := [], gap := [], gmc := [], wsMembers := [], workspaces := [] }

def dbC7a : DB := stateAfter (addUser dbC7 2 9) dbC7

def dbC7b : DB := stateAfter (nestGroup dbC7a 1 2) dbC7a

def dbC7c : DB := stateAfter (unnestGroup dbC7b 1 2) dbC7b

/-- **C7 (violated by the code).** Add user 9 to group 2, nest group 2
inside group 1, then unnest it again.  The
`maintain_group_membership_delete` trigger rebuilds
`group_membership_closure` while `group_ancestor_paths` still contains
the removed nesting's rows (the service's `rebuildGroupAncestorPaths`
cleanup runs only afterwards), so the stale row (1, 9) is re-inserted:
after `unnestGroup(1, 2)` the flattened index still lists user 9 as a
member of group 1, although user 9 is not a direct member of group 1 or
of any remaining descendant of group 1 — contradicting the derived-index
invariant. -/
theorem c7_unnest_stale_closure :
    addUser dbC7 2 9 = .ok dbC7a ∧
    nestGroup dbC7a 1 2 = .ok dbC7b ∧
    unnestGroup dbC7b 1 2 = .ok dbC7c ∧
    dbC7b.gmc = [(2, 9), (1, 9)] ∧
    dbC7c.gm = [⟨2, .user 9⟩] ∧
    dbC7c.gap = [⟨1, 1, 0⟩, ⟨2, 2, 0⟩] ∧
    (1, 9) ∈ dbC7c.gmc ∧
    (∀ m ∈ dbC7c.gm, m.group ≠ 1) ∧
    (∀ q ∈ dbC7c.gap, q.ancestor = 1 → q.descendant = 1) :=
  ⟨rfl, rfl, rfl, by decide, by decide, by decide, by decide, by decide, by decide⟩

/-- **C9.** `hasPermission(u, n, r)` returns true iff the effective level
of `resolve(u, n)` is at least `r` in the order
none < read < write < full_access; a NoAccess result has effective level
none. -/
theorem c9_hasPermission_iff (db : DB) (u p : Nat) (required : Level) :
    (hasPermission db u p required = true ↔
      required.rank ≤ (resolvedLevel (resolvePermission db u p)).rank) ∧
    resolvedLevel Resolved.noAccess = Level.none := by
  constructor
  · simp [hasPermission, isAtLeast]
  · rfl

/-- **C8.** After a successful `setGrant(n, g, L)`, repeating the same call
is rejected as a conflict (unique index), and the state — hence every
subsequent resolution — is unchanged relative to after the first call. -/
theorem c8_setGrant_idempotent (db db₁ : DB) (p : Nat) (gr : Grantee) (l : Level)
    (h : setGrant db p gr l = .ok db₁) :
    setGrant db₁ p gr l = .error .conflict ∧
      ∀ u m, resolvePermission (stateAfter (setGrant db₁ p gr l) db₁) u m
        = resolvePermission db₁ u m := by
  have hgr : db₁.grants = db.grants ++ [⟨p, gr, l⟩] := by
    by_cases hc : (db.grants.any (fun g => g.page == p && g.grantee == gr)) = true
    · simp [setGrant, hc] at h
    · simp only [Bool.not_eq_true] at hc
      simp only [setGrant, hc, Bool.false_eq_true, if_false, Except.ok.injEq] at h
      rw [← h]
  have hdup : (db₁.grants.any (fun g => g.page == p && g.grantee == gr)) = true := by
    rw [hgr]
    simp [List.any_append]
  have herr : setGrant db₁ p gr l = .error .conflict := by
    simp [setGrant, hdup]
  refine ⟨herr, ?_⟩
  intro u m
  rw [herr]
  rfl

def dbC8 : DB :=
  { pages := [⟨0, Option.none, 0⟩], paths := [⟨0, 0, 0⟩], grants := [], users := [1],
    groups := [], gm := [], gap := [], gmc := [], wsMembers := [], workspaces := [(0, .none)] }

theorem c8_witness :
    setGrant dbC8 0 (.user 1) .write
        = .ok { dbC8 with grants := [⟨0, .user 1, .write⟩] } ∧
      (setGrant { dbC8 with grants := [⟨0, .user 1, .write⟩] } 0 (.user 1) .write
          = .error .conflict ∧
        ∀ u m, resolvePermission
            (stateAfter (setGrant { dbC8 with grants := [⟨0, .user 1, .write⟩] } 0 (.user 1) .write)
              { dbC8 with grants := [⟨0, .user 1, .write⟩] }) u m
          = resolvePermission { dbC8 with grants := [⟨0, .user 1, .write⟩] } u m) :=
  ⟨rfl, c8_setGrant_idempotent dbC8 _ 0 (.user 1) .write rfl⟩

/-- **C5.** `movePage(n, p)` is rejected with the cycle error when `p = n`
or `p` is a descendant of `n` (an ancestry row n → p exists); the rejection
produces no new state, so the ancestry index and adjacency pointers are
unchanged. -/
theorem c5_move_cycle_guard (db : DB) (n p : Nat)
    (hn : (db.pages.find? (fun r => r.id == n)).isSome = true)
    (hcase : p = n ∨ ((db.pages.find? (fun r => r.id == p)).isSome = true ∧
      db.paths.any (fun r => r.ancestor == n && r.descendant == p) = true)) :
    movePage db n (some p) = .error .cycle ∧
      stateAfter (movePage db n (some p)) db = db := by
  obtain ⟨pg, hpg⟩ := Option.isSome_iff_exists.1 hn
  have hmain : movePage db n (some p) = .error .cycle := by
    by_cases hpn : p = n
    · subst hpn
      simp [movePage, hpg]
    · rcases hcase with h | ⟨hp, hrow⟩
      · exact absurd h hpn
      obtain ⟨pg2, hpg2⟩ := Option.isSome_iff_exists.1 hp
      simp [movePage, hpg, hpg2, hrow, hpn]
  exact ⟨hmain, by rw [hmain]; rfl⟩

def dbC5 : DB :=
  { pages := [⟨1, Option.none, 0⟩, ⟨2, some 1, 0⟩],
    paths := [⟨1, 1, 0⟩, ⟨2, 2, 0⟩, ⟨1, 2, 1⟩],
    grants := [], users := [], groups := [], gm := [], gap := [], gmc := [],
    wsMembers := [], workspaces := [] }

theorem c5_witness :
    movePage dbC5 1 (some 2) = .error .cycle ∧
      stateAfter (movePage dbC5 1 (some 2)) dbC5 = dbC5 :=
  c5_move_cycle_guard dbC5 1 2 (by decide) (by decide)

/-- **C6.** `nestGroup(p, c)` is rejected with the cycle error whenever `c`
is already an ancestor of `p` in `group_ancestor_paths`, including the
degenerate case `p = c`; the rejection produces no new state, so no
nesting edge or closure row is written. -/
theorem c6_nest_cycle_guard (db : DB) (parent child : Nat)
    (hp : parent ∈ db.groups)
    (hc : child ∈ db.groups)
    (hcase : parent = child ∨
      db.gap.any (fun r => r.ancestor == child && r.descendant == parent) = true) :
    nestGroup db parent child = .error .cycle ∧
      stateAfter (nestGroup db parent child) db = db := by
  have hmain : nestGroup db parent child = .error .cycle := by
    by_cases hpc : parent = child
    · subst hpc
      simp [nestGroup, hp]
    · rcases hcase with h | hrow
      · exact absurd h hpc
      · simp [nestGroup, hp, hc, hpc, hrow]
  exact ⟨hmain, by rw [hmain]; rfl⟩

def dbC6 : DB :=
  { pages := [], paths := [], grants := [], users := [], groups := [1, 2],
    gm := [⟨1, .childGroup 2⟩], gap := [⟨1, 1, 0⟩, ⟨2, 2, 0⟩, ⟨1, 2, 1⟩],
    gmc := [], wsMembers := [], workspaces := [] }

theorem c6_witness :
    (nestGroup dbC6 2 1 = .error .cycle ∧
      stateAfter (nestGroup dbC6 2 1) dbC6 = dbC6) ∧
    (nestGroup dbC6 1 1 = .error .cycle ∧
      stateAfter (nestGroup dbC6 1 1) dbC6 = dbC6) :=
  ⟨c6_nest_cycle_guard dbC6 2 1 (by decide) (by decide) (by decide),
   c6_nest_cycle_guard dbC6 1 1 (by decide) (by decide) (by decide)⟩

/-- **C3 (amended).** When no ancestor of `n` carries a grant applicable to
`u`, resolution falls back to the workspace default only when the
user is a member of the page's workspace AND the default level is not
`none`; otherwise (non-member, missing workspace, or a `none` default) the
result is NoAccess. -/
theorem c3_workspace_fallback (db : DB) (u p : Nat) (h : matching db u p = []) :
    resolvePermission db u p =
      (match getWorkspaceDefault db u p with
        | some l => if l = Level.none then Resolved.noAccess else Resolved.workspaceDefault l
        | Option.none => Resolved.noAccess) := by
  have hres := resolveFromPageTree_none_of_nil db u p h
  simp only [resolvePermission, hres]
  cases hw : getWorkspaceDefault db u p with
  | none => rfl
  | some lvl =>
    by_cases hl : lvl = Level.none <;> simp [hl]

def dbC3 : DB :=
  { pages := [⟨0, Option.none, 0⟩], paths := [⟨0, 0, 0⟩], grants := [], users := [7],
    groups := [], gm := [], gap := [], gmc := [], wsMembers := [(0, 7)],
    workspaces := [(0, .none)] }

/-- The claim as stated is false: user 7 is a member of page 0's workspace
and no grant exists anywhere, yet resolution yields NoAccess rather than
WorkspaceDefault(none), because the service skips a `none` default. -/
theorem c3_counterexample :
    matching dbC3 7 0 = [] ∧
    (0, 7) ∈ dbC3.wsMembers ∧
    getWorkspaceDefault dbC3 7 0 = some Level.none ∧
    resolvePermission dbC3 7 0 = .noAccess ∧
    resolvePermission dbC3 7 0 ≠ .workspaceDefault Level.none := by
  refine ⟨by decide, by decide, by decide, by decide, by decide⟩

def dbC3w : DB :=
  { dbC3 with workspaces := [(0, .read)] }

theorem c3_witness :
    matching dbC3w 7 0 = [] ∧
      resolvePermission dbC3w 7 0 =
        (match getWorkspaceDefault dbC3w 7 0 with
          | some l => if l = Level.none then Resolved.noAccess else Resolved.workspaceDefault l
          | Option.none => Resolved.noAccess) :=
  ⟨by decide, c3_workspace_fallback dbC3w 7 0 (by decide)⟩

end AuthZ

-- sanity checks (scratch)
example : AuthZ.resolvePermission
    { pages := [⟨0, Option.none, 0⟩], paths := [⟨0, 0, 0⟩],
      grants := [⟨0, .user 1, .read⟩], users := [1], groups := [],
      gm := [], gap := [], gmc := [], wsMembers := [], workspaces := [(0, .none)] }
    1 0 = .direct .read 0 := by decide

example : AuthZ.resolvePermission
    { pages := [⟨0, Option.none, 0⟩], paths := [⟨0, 0, 0⟩],
      grants := [], users := [1], groups := [],
      gm := [], gap := [], gmc := [], wsMembers := [(0, 1)], workspaces := [(0, .read)] }
    1 0 = .workspaceDefault .read := by decide

example : AuthZ.resolvePermission
    { pages := [⟨0, Option.none, 0⟩], paths := [⟨0, 0, 0⟩],
      grants := [], users := [1], groups := [],
      gm := [], gap := [], gmc := [], wsMembers := [(0, 1)], workspaces := [(0, .none)] }
    1 0 = .noAccess := by decide

-- grandparent write inherited at depth 2
example : AuthZ.resolvePermission
    { pages := [⟨0, Option.none, 0⟩, ⟨1, some 0, 0⟩, ⟨2, some 1, 0⟩],
      paths := [⟨0, 0, 0⟩, ⟨1, 1, 0⟩, ⟨0, 1, 1⟩, ⟨2, 2, 0⟩, ⟨1, 2, 1⟩, ⟨0, 2, 2⟩],
      grants := [⟨0, .user 1, .write⟩], users := [1], groups := [],
      gm := [], gap := [], gmc := [], wsMembers := [], workspaces := [(0, .none)] }
    1 2 = .inherited .write 0 2 := by decide

-- group none + group write at same depth: max wins
example : AuthZ.resolvePermission
    { pages := [⟨0, Option.none, 0⟩], paths := [⟨0, 0, 0⟩],
      grants := [⟨0, .group 7, .none⟩, ⟨0, .group 8, .write⟩], users := [1], groups := [7, 8],
      gm := [], gap := [], gmc := [(7, 1), (8, 1)], wsMembers := [], workspaces := [(0, .none)] }
    1 0 = .direct .write 0 := by decide

-- user read beats group full_access at same depth
example : AuthZ.resolvePermission
    { pages := [⟨0, Option.none, 0⟩], paths := [⟨0, 0, 0⟩],
      grants := [⟨0, .group 7, .full_access⟩, ⟨0, .user 1, .read⟩], users := [1], groups := [7],
      gm := [], gap := [], gmc := [(7, 1)], wsMembers := [], workspaces := [(0, .none)] }
    1 0 = .direct .read 0 := by decide

namespace AuthZScratch
open AuthZ

def base : DB :=
  { pages := [], paths := [], grants := [], users := [9], groups := [1, 2],
    gm := [], gap := [], gmc := [], wsMembers := [], workspaces := [] }

def s1 : DB := stateAfter (addUser base 2 9) base
def s2 : DB := stateAfter (nestGroup s1 1 2) s1
def s3 : DB := stateAfter (unnestGroup s2 1 2) s2

example : (addUser base 2 9).isOk = true := by decide
example : s1.gmc = [(2, 9)] := by decide
example : s2.gmc = [(2, 9), (1, 9)] := by decide
example : s2.gap = [⟨1, 1, 0⟩, ⟨2, 2, 0⟩, ⟨1, 2, 1⟩] := by decide
-- the bug: after unnesting, (1, 9) stays in the membership closure
example : s3.gm = [⟨2, .user 9⟩] := by decide
example : s3.gap = [⟨1, 1, 0⟩, ⟨2, 2, 0⟩] := by decide
example : s3.gmc = [(2, 9), (1, 9)] := by decide

-- movePage scratch: move page 2 (child of 1) under 3
def mdb : DB :=
  { pages := [⟨1, Option.none, 0⟩, ⟨2, some 1, 0⟩, ⟨3, Option.none, 0⟩],
    paths := [⟨1, 1, 0⟩, ⟨2, 2, 0⟩, ⟨1, 2, 1⟩, ⟨3, 3, 0⟩],
    grants := [], users := [], groups := [], gm := [], gap := [], gmc := [],
    wsMembers := [], workspaces := [] }

example : stateAfter (movePage mdb 2 (some 3)) mdb =
    { mdb with paths := [⟨1, 1, 0⟩, ⟨2, 2, 0⟩, ⟨3, 3, 0⟩, ⟨3, 2, 1⟩],
               pages := [⟨1, Option.none, 0⟩, ⟨2, some 3, 0⟩, ⟨3, Option.none, 0⟩] } := by decide

example : movePage mdb 1 (some 2) = .error .cycle := rfl
example : movePage mdb 1 (some 1) = .error .cycle := rfl
example : verifyClosureConsistency mdb 2 = true := by decide
example : verifyClosureConsistency (stateAfter (movePage mdb 2 (some 3)) mdb) 2 = true := by decide
example : verifyClosureConsistency { mdb with paths := [⟨1, 1, 0⟩, ⟨2, 2, 0⟩] } 2 = false := by
  decide

end AuthZScratch
